import Mathlib

/-!
# Verification of the obj2mc voxelization-and-meshing core

Shallow embedding of `src/src-tauri/src/lib.rs`:

* `triangle_aabb_intersect` — the separating-axis triangle/box predicate
  (lines 75–113 of the source);
* `run_greedy_meshing` — the greedy cuboid decomposition (lines 117–179);
* `voxelize_model` — the per-mesh rasterization pipeline (lines 184–254).

Modelling conventions: the source computes with `f32` and `i32`; here
floating-point values are modelled by exact rationals (`ℚ`) and machine
integers by `ℤ`.  Every concrete input appearing in a witness or
counterexample below uses only small dyadic rationals, on which `f32`
arithmetic is exact, so concrete evaluations agree with the compiled code.
The source's `HashSet` is modelled by `Finset`; where the source iterates a
hash set in unspecified order the iteration order is taken as an explicit
list parameter.  Vertex-buffer accesses that can panic in the source are
modelled with `Option`.
-/

namespace Obj2mc

/-- `glam::Vec3`, with `f32` components modelled as exact rationals. -/
structure Vec3 where
  x : ℚ
  y : ℚ
  z : ℚ
deriving DecidableEq, Repr

/-- `glam::IVec3` (three `i32`s, modelled as unbounded integers). -/
structure IVec3 where
  x : ℤ
  y : ℤ
  z : ℤ
deriving DecidableEq, Repr

namespace Vec3

def sub (a b : Vec3) : Vec3 := ⟨a.x - b.x, a.y - b.y, a.z - b.z⟩

def cross (a b : Vec3) : Vec3 :=
  ⟨a.y * b.z - a.z * b.y, a.z * b.x - a.x * b.z, a.x * b.y - a.y * b.x⟩

def dot (a b : Vec3) : ℚ := a.x * b.x + a.y * b.y + a.z * b.z

/-- Componentwise minimum, `glam::Vec3::min`. -/
def cmin (a b : Vec3) : Vec3 := ⟨min a.x b.x, min a.y b.y, min a.z b.z⟩

/-- Componentwise maximum, `glam::Vec3::max`. -/
def cmax (a b : Vec3) : Vec3 := ⟨max a.x b.x, max a.y b.y, max a.z b.z⟩

/-- Scalar multiplication `v * s`. -/
def scl (a : Vec3) (s : ℚ) : Vec3 := ⟨a.x * s, a.y * s, a.z * s⟩

end Vec3

/-- `v.floor().as_ivec3()` of the source: componentwise floor to integers. -/
def floorIVec3 (v : Vec3) : IVec3 := ⟨⌊v.x⌋, ⌊v.y⌋, ⌊v.z⌋⟩

/-- `v.ceil().as_ivec3()` of the source: componentwise ceiling to integers. -/
def ceilIVec3 (v : Vec3) : IVec3 := ⟨⌈v.x⌉, ⌈v.y⌉, ⌈v.z⌉⟩

/-- The nine candidate cross-product axes of the SAT test, in source order
(lines 95–99): each triangle edge vector crossed with each box principal
axis. -/
def satCrossAxes (f0 f1 f2 : Vec3) : List (ℚ × ℚ × ℚ) :=
  [(0, -f0.z, f0.y), (0, -f1.z, f1.y), (0, -f2.z, f2.y),
   (f0.z, 0, -f0.x), (f1.z, 0, -f1.x), (f2.z, 0, -f2.x),
   (-f0.y, f0.x, 0), (-f1.y, f1.x, 0), (-f2.y, f2.x, 0)]

/-- `triangle_aabb_intersect` (source lines 75–113), translated clause by
clause.  The vertices are first translated into box-local coordinates, then
the box-face tests, the triangle-normal test, and the nine cross-axis tests
reject (return `false`) in turn; if none rejects the result is `true`. -/
def triangle_aabb_intersect (v0 v1 v2 center : Vec3) (half_size : ℚ) : Bool :=
  let v0 := Vec3.sub v0 center
  let v1 := Vec3.sub v1 center
  let v2 := Vec3.sub v2 center
  let f0 := Vec3.sub v1 v0
  let f1 := Vec3.sub v2 v1
  let f2 := Vec3.sub v0 v2
  let hs := half_size
  if min (min v0.x v1.x) v2.x > hs ∨ max (max v0.x v1.x) v2.x < -hs then false
  else if min (min v0.y v1.y) v2.y > hs ∨ max (max v0.y v1.y) v2.y < -hs then false
  else if min (min v0.z v1.z) v2.z > hs ∨ max (max v0.z v1.z) v2.z < -hs then false
  else
    let normal := Vec3.cross f0 f1
    let d := Vec3.dot normal v0
    let r := hs * (|normal.x| + |normal.y| + |normal.z|)
    if |d| > r then false
    else if (satCrossAxes f0 f1 f2).any (fun a =>
        let p0 := v0.x * a.1 + v0.y * a.2.1 + v0.z * a.2.2
        let p1 := v1.x * a.1 + v1.y * a.2.1 + v1.z * a.2.2
        let p2 := v2.x * a.1 + v2.y * a.2.1 + v2.z * a.2.2
        let r := hs * (|a.1| + |a.2.1| + |a.2.2|)
        decide (min (min p0 p1) p2 > r ∨ max (max p0 p1) p2 < -r)) then false
    else true

section ClaimC4

/-! Claim-side separation predicates, written from the claim's wording
("box-face-normal test", "triangle-face-normal test", "nine
edge-cross-axis tests", all with strict inequality), to be compared with
the source function. -/

/-- A box-face normal separates: on some coordinate axis the box-local
vertices have minimum above `half_size` or maximum below `-half_size`. -/
def sepBoxFace (v0 v1 v2 center : Vec3) (hs : ℚ) : Prop :=
  let w0 := Vec3.sub v0 center
  let w1 := Vec3.sub v1 center
  let w2 := Vec3.sub v2 center
  (min (min w0.x w1.x) w2.x > hs ∨ max (max w0.x w1.x) w2.x < -hs) ∨
  (min (min w0.y w1.y) w2.y > hs ∨ max (max w0.y w1.y) w2.y < -hs) ∨
  (min (min w0.z w1.z) w2.z > hs ∨ max (max w0.z w1.z) w2.z < -hs)

/-- The triangle's face normal separates:
`|normal ⬝ v0| > half_size * (|nx| + |ny| + |nz|)` in box-local
coordinates. -/
def sepTriNormal (v0 v1 v2 center : Vec3) (hs : ℚ) : Prop :=
  let w0 := Vec3.sub v0 center
  let w1 := Vec3.sub v1 center
  let w2 := Vec3.sub v2 center
  let n := Vec3.cross (Vec3.sub w1 w0) (Vec3.sub w2 w1)
  |Vec3.dot n w0| > hs * (|n.x| + |n.y| + |n.z|)

/-- Some edge-cross axis separates: for an axis `a` among the nine
edge-cross candidates, the minimum projection of the three box-local
vertices exceeds `r = half_size * (|ax| + |ay| + |az|)` or the maximum
projection is below `-r`. -/
def sepEdgeAxis (v0 v1 v2 center : Vec3) (hs : ℚ) : Prop :=
  let w0 := Vec3.sub v0 center
  let w1 := Vec3.sub v1 center
  let w2 := Vec3.sub v2 center
  let f0 := Vec3.sub w1 w0
  let f1 := Vec3.sub w2 w1
  let f2 := Vec3.sub w0 w2
  ∃ a ∈ satCrossAxes f0 f1 f2,
    let p0 := w0.x * a.1 + w0.y * a.2.1 + w0.z * a.2.2
    let p1 := w1.x * a.1 + w1.y * a.2.1 + w1.z * a.2.2
    let p2 := w2.x * a.1 + w2.y * a.2.1 + w2.z * a.2.2
    let r := hs * (|a.1| + |a.2.1| + |a.2.2|)
    min (min p0 p1) p2 > r ∨ max (max p0 p1) p2 < -r

end ClaimC4

/-- C4: `triangle_aabb_intersect` returns `false` iff one of the 13
candidate axes separates under strict inequality — a box-face-normal test,
the triangle-face-normal test, or one of the nine edge-cross-axis tests;
boundary-exact equality never rejects. -/
theorem sat_rejects_iff_strict_separation (v0 v1 v2 center : Vec3) (hs : ℚ) :
    triangle_aabb_intersect v0 v1 v2 center hs = false ↔
      sepBoxFace v0 v1 v2 center hs ∨ sepTriNormal v0 v1 v2 center hs ∨
        sepEdgeAxis v0 v1 v2 center hs := by
  simp only [triangle_aabb_intersect, sepBoxFace, sepTriNormal, sepEdgeAxis]
  split_ifs with h1 h2 h3 h4 h5
  · exact iff_of_true rfl (Or.inl (Or.inl h1))
  · exact iff_of_true rfl (Or.inl (Or.inr (Or.inl h2)))
  · exact iff_of_true rfl (Or.inl (Or.inr (Or.inr h3)))
  · exact iff_of_true rfl (Or.inr (Or.inl h4))
  · refine iff_of_true rfl (Or.inr (Or.inr ?_))
    obtain ⟨a, ha, hfa⟩ := List.any_eq_true.mp h5
    exact ⟨a, ha, of_decide_eq_true hfa⟩
  · refine iff_of_false (by decide) ?_
    rintro ((h | h | h) | h | ⟨a, ha, hp⟩)
    · exact h1 h
    · exact h2 h
    · exact h3 h
    · exact h4 h
    · exact h5 (List.any_eq_true.mpr ⟨a, ha, decide_eq_true hp⟩)

/-! ## Greedy meshing (source lines 115–179) -/

/-- `McCube` (source lines 16–20): integer origin, integer size
`[width, height, depth]`, placeholder UV. -/
structure McCube where
  origin : IVec3
  size : IVec3
  uv : ℤ × ℤ
deriving DecidableEq, Repr

/-- `McBone` (source lines 22–27): a named group of cuboids with a pivot. -/
structure McBone where
  name : String
  pivot : IVec3
  cubes : List McCube
deriving DecidableEq, Repr

/-- A cell is available for growth: in the voxel set and not yet claimed
(`voxels.contains && !processed.contains` of the source loops). -/
def avail (voxels processed : Finset IVec3) (c : IVec3) : Prop :=
  c ∈ voxels ∧ c ∉ processed

instance (voxels processed : Finset IVec3) (c : IVec3) :
    Decidable (avail voxels processed c) := by
  unfold avail; infer_instance

/-- Length of the run of consecutive indices `s, s+1, …` on which `p`
holds, capped by `fuel`.  Models a `while p { i += 1 }` loop; every use
below supplies enough fuel for the cap never to bind. -/
def runFrom (p : ℕ → Bool) : ℕ → ℕ → ℕ
  | 0, _ => 0
  | fuel + 1, s => if p s then runFrom p fuel (s + 1) + 1 else 0

/-- The three growth loops of `run_greedy_meshing` (source lines 133–161)
at an unclaimed seed cell `pos`: grow width along `+x` cell by cell, then
depth along `+z` a full x-row at a time, then height along `+y` a full
width×depth rectangle at a time.  Returns `(width, height, depth)`. -/
def growCube (voxels processed : Finset IVec3) (fuel : ℕ) (pos : IVec3) :
    ℕ × ℕ × ℕ :=
  let width := 1 + runFrom
    (fun i => decide (avail voxels processed ⟨pos.x + 1 + i, pos.y, pos.z⟩)) fuel 0
  let depth := 1 + runFrom
    (fun d => decide (∀ wx < width,
      avail voxels processed ⟨pos.x + wx, pos.y, pos.z + 1 + d⟩)) fuel 0
  let height := 1 + runFrom
    (fun h => decide (∀ wx < width, ∀ dz < depth,
      avail voxels processed ⟨pos.x + wx, pos.y + 1 + h, pos.z + dz⟩)) fuel 0
  (width, height, depth)

/-- The set of cells covered by a cuboid of origin `pos` and size
`(w, h, d)` — the triple loop of source lines 163–169. -/
def cubeCells (pos : IVec3) (w h d : ℕ) : Finset IVec3 :=
  (Finset.range w ×ˢ Finset.range h ×ˢ Finset.range d).image
    fun t => ⟨pos.x + t.1, pos.y + t.2.1, pos.z + t.2.2⟩

/-- Cells covered by an emitted cuboid. -/
def McCube.cells (c : McCube) : Finset IVec3 :=
  cubeCells c.origin c.size.x.toNat c.size.y.toNat c.size.z.toNat

/-- Volume `width * height * depth` of a cuboid. -/
def McCube.volume (c : McCube) : ℤ := c.size.x * c.size.y * c.size.z

/-- The main loop of `run_greedy_meshing` (source lines 128–176): scan the
sorted cells, skip claimed ones, otherwise grow a cuboid, claim its cells
and emit it. -/
def greedyGo (voxels : Finset IVec3) (fuel : ℕ) :
    List IVec3 → Finset IVec3 → List McCube
  | [], _ => []
  | pos :: rest, processed =>
    if pos ∈ processed then greedyGo voxels fuel rest processed
    else
      let whd := growCube voxels processed fuel pos
      { origin := pos, size := ⟨whd.1, whd.2.1, whd.2.2⟩, uv := (0, 0) } ::
        greedyGo voxels fuel rest
          (processed ∪ cubeCells pos whd.1 whd.2.1 whd.2.2)

/-- The comparator of source lines 122–124:
`a.y.cmp(&b.y).then(a.z.cmp(&b.z)).then(a.x.cmp(&b.x))` read as a
less-or-equal test — lexicographic on `(y, z, x)`. -/
def cellLe (a b : IVec3) : Bool :=
  if a.y = b.y then
    (if a.z = b.z then decide (a.x ≤ b.x) else decide (a.z < b.z))
  else decide (a.y < b.y)

/-- `sorted_voxels`: the iterated cells sorted by `(y, z, x)` ascending. -/
def sortCells (iter : List IVec3) : List IVec3 := iter.mergeSort cellLe

/-- `run_greedy_meshing` (source lines 117–179).  The source iterates a
hash set whose iteration order is unspecified; that order is taken here as
the explicit list `iter` (without duplicates when it comes from a hash
set), and the set itself is `iter.toFinset`.  The growth loops run with
fuel `card + 1`, which is shown below never to bind. -/
def run_greedy_meshing (iter : List IVec3) : List McCube :=
  if iter.toFinset = ∅ then []
  else greedyGo iter.toFinset (iter.toFinset.card + 1) (sortCells iter) ∅

/-! ## Support lemmas about the greedy-meshing embedding -/

/-- The union of the cells covered by a list of cuboids. -/
def cubesCells (l : List McCube) : Finset IVec3 :=
  l.foldr (fun c s => c.cells ∪ s) ∅

theorem runFrom_true (p : ℕ → Bool) :
    ∀ (fuel s : ℕ), ∀ i < runFrom p fuel s, p (s + i) = true := by
  intro fuel
  induction fuel with
  | zero => intro s i hi; simp [runFrom] at hi
  | succ f ih =>
    intro s i hi
    rw [runFrom] at hi
    by_cases hp : p s
    · rw [if_pos hp] at hi
      cases i with
      | zero => simpa using hp
      | succ j =>
        have := ih (s + 1) j (by omega)
        simpa [Nat.add_assoc, Nat.add_comm 1 j] using this
    · rw [if_neg hp] at hi; omega

theorem runFrom_eq_of_lt_of_le (p : ℕ → Bool) :
    ∀ {f f' s : ℕ}, runFrom p f s < f → f ≤ f' →
      runFrom p f' s = runFrom p f s := by
  intro f
  induction f with
  | zero => intro f' s h _; omega
  | succ g ih =>
    intro f' s h hle
    obtain ⟨g', rfl⟩ : ∃ g', f' = g' + 1 := ⟨f' - 1, by omega⟩
    rw [runFrom] at h ⊢
    rw [runFrom]
    by_cases hp : p s
    · rw [if_pos hp] at h ⊢
      rw [if_pos hp]
      have h' : runFrom p g (s + 1) < g := by omega
      rw [ih h' (by omega)]
    · rw [if_neg hp, if_neg hp]

theorem runFrom_le_of_all_lt (p : ℕ → Bool) (fuel B : ℕ)
    (hB : ∀ k : ℕ, (∀ i < k, p i = true) → k ≤ B) :
    runFrom p fuel 0 ≤ B := by
  refine hB _ fun i hi => ?_
  simpa using runFrom_true p fuel 0 i hi

theorem runFrom_stable (p : ℕ → Bool) (B f f' : ℕ)
    (hb : ∀ fuel, runFrom p fuel 0 ≤ B) (hf : B < f) (hf' : B < f') :
    runFrom p f 0 = runFrom p f' 0 := by
  have h1 : runFrom p (B + 1) 0 < B + 1 := by have := hb (B + 1); omega
  rw [runFrom_eq_of_lt_of_le p h1 (by omega : B + 1 ≤ f),
    runFrom_eq_of_lt_of_le p h1 (by omega : B + 1 ≤ f')]

theorem mem_cubeCells {pos : IVec3} {w h d : ℕ} {c : IVec3} :
    c ∈ cubeCells pos w h d ↔
      ∃ wx < w, ∃ hy < h, ∃ dz < d,
        c = ⟨pos.x + wx, pos.y + hy, pos.z + dz⟩ := by
  simp only [cubeCells, Finset.mem_image, Finset.mem_product, Finset.mem_range]
  constructor
  · rintro ⟨⟨wx, hy, dz⟩, ⟨h1, h2, h3⟩, rfl⟩
    exact ⟨wx, h1, hy, h2, dz, h3, rfl⟩
  · rintro ⟨wx, h1, hy, h2, dz, h3, rfl⟩
    exact ⟨⟨wx, hy, dz⟩, ⟨h1, h2, h3⟩, rfl⟩

theorem cubeCells_card (pos : IVec3) (w h d : ℕ) :
    (cubeCells pos w h d).card = w * h * d := by
  rw [cubeCells, Finset.card_image_of_injective]
  · simp [Finset.card_product, Nat.mul_assoc]
  · rintro ⟨a, b, c⟩ ⟨a', b', c'⟩ he
    simp only [IVec3.mk.injEq, add_right_inj, Nat.cast_inj] at he
    obtain ⟨rfl, rfl, rfl⟩ := he
    rfl

theorem pos_mem_cubeCells (pos : IVec3) {w h d : ℕ}
    (hw : 0 < w) (hh : 0 < h) (hd : 0 < d) : pos ∈ cubeCells pos w h d := by
  rw [mem_cubeCells]
  exact ⟨0, hw, 0, hh, 0, hd, by simp⟩

theorem mem_cubesCells {l : List McCube} {c : IVec3} :
    c ∈ cubesCells l ↔ ∃ cb ∈ l, c ∈ cb.cells := by
  induction l with
  | nil => simp [cubesCells]
  | cons a l ih =>
    simp only [cubesCells, List.foldr_cons, Finset.mem_union, List.mem_cons]
    rw [show l.foldr (fun c s => c.cells ∪ s) ∅ = cubesCells l from rfl]
    rw [ih]
    constructor
    · rintro (h | ⟨cb, hcb, hc⟩)
      · exact ⟨a, Or.inl rfl, h⟩
      · exact ⟨cb, Or.inr hcb, hc⟩
    · rintro ⟨cb, rfl | hcb, hc⟩
      · exact Or.inl hc
      · exact Or.inr ⟨cb, hcb, hc⟩

theorem cubesCells_cons (a : McCube) (l : List McCube) :
    cubesCells (a :: l) = a.cells ∪ cubesCells l := rfl

theorem subset_cubesCells {l : List McCube} {cb : McCube} (h : cb ∈ l) :
    cb.cells ⊆ cubesCells l :=
  fun c hc => mem_cubesCells.mpr ⟨cb, h, hc⟩

theorem disjoint_cubesCells {s : Finset IVec3} {l : List McCube}
    (h : ∀ cb ∈ l, Disjoint s cb.cells) : Disjoint s (cubesCells l) := by
  induction l with
  | nil => simp [cubesCells]
  | cons a l ih =>
    rw [cubesCells_cons, Finset.disjoint_union_right]
    exact ⟨h a (List.mem_cons_self a l), ih fun cb hcb => h cb (List.mem_cons_of_mem a hcb)⟩

theorem sum_volume_eq_card {l : List McCube}
    (hvol : ∀ cb ∈ l, (cb.cells.card : ℤ) = cb.volume)
    (hdisj : l.Pairwise fun a b => Disjoint a.cells b.cells) :
    (l.map McCube.volume).sum = ((cubesCells l).card : ℤ) := by
  induction l with
  | nil => simp [cubesCells]
  | cons a l ih =>
    rw [List.pairwise_cons] at hdisj
    have hd : Disjoint a.cells (cubesCells l) := disjoint_cubesCells hdisj.1
    rw [List.map_cons, List.sum_cons, cubesCells_cons,
      Finset.card_union_of_disjoint hd,
      ih (fun cb hcb => hvol cb (List.mem_cons_of_mem a hcb)) hdisj.2,
      ← hvol a (List.mem_cons_self a l)]
    push_cast
    ring

theorem growCube_pos (voxels processed : Finset IVec3) (fuel : ℕ) (pos : IVec3) :
    0 < (growCube voxels processed fuel pos).1 ∧
    0 < (growCube voxels processed fuel pos).2.1 ∧
    0 < (growCube voxels processed fuel pos).2.2 := by
  refine ⟨?_, ?_, ?_⟩ <;> exact Nat.succ_le_of_lt (Nat.lt_of_lt_of_le Nat.zero_lt_one (by simp [growCube]))

theorem growCube_avail (voxels processed : Finset IVec3) (fuel : ℕ) (pos : IVec3)
    (hv : pos ∈ voxels) (hp : pos ∉ processed) :
    ∀ c ∈ cubeCells pos (growCube voxels processed fuel pos).1
        (growCube voxels processed fuel pos).2.1
        (growCube voxels processed fuel pos).2.2,
      avail voxels processed c := by
  intro c hc
  rw [mem_cubeCells] at hc
  obtain ⟨wx, hwx, hy, hhy, dz, hdz, rfl⟩ := hc
  have hwidth : (growCube voxels processed fuel pos).1 = 1 + runFrom
      (fun i => decide (avail voxels processed ⟨pos.x + 1 + i, pos.y, pos.z⟩))
      fuel 0 := rfl
  have hheight : (growCube voxels processed fuel pos).2.1 = 1 + runFrom
      (fun h => decide (∀ wx < (growCube voxels processed fuel pos).1,
        ∀ dz < (growCube voxels processed fuel pos).2.2,
        avail voxels processed ⟨pos.x + wx, pos.y + 1 + h, pos.z + dz⟩))
      fuel 0 := rfl
  have hdepth : (growCube voxels processed fuel pos).2.2 = 1 + runFrom
      (fun d => decide (∀ wx < (growCube voxels processed fuel pos).1,
        avail voxels processed ⟨pos.x + wx, pos.y, pos.z + 1 + d⟩))
      fuel 0 := rfl
  -- The row of the seed cell (hy = 0, dz = 0): the width run.
  have hrow : ∀ wx < (growCube voxels processed fuel pos).1,
      avail voxels processed ⟨pos.x + wx, pos.y, pos.z⟩ := by
    intro i hi
    cases i with
    | zero => simpa using And.intro hv hp
    | succ j =>
      rw [hwidth] at hi
      have hj : j < runFrom
          (fun i => decide (avail voxels processed ⟨pos.x + 1 + i, pos.y, pos.z⟩))
          fuel 0 := by omega
      have := runFrom_true _ fuel 0 j hj
      simp only [Nat.zero_add, decide_eq_true_eq] at this
      have he : (⟨pos.x + (j + 1 : ℕ), pos.y, pos.z⟩ : IVec3) =
          ⟨pos.x + 1 + (j : ℤ), pos.y, pos.z⟩ := by
        congr 1 <;> push_cast <;> ring
      rw [he]
      exact this
  -- The base rectangle (hy = 0): the depth run.
  have hrect : ∀ wx < (growCube voxels processed fuel pos).1,
      ∀ dz < (growCube voxels processed fuel pos).2.2,
      avail voxels processed ⟨pos.x + wx, pos.y, pos.z + dz⟩ := by
    intro i hi d hd
    cases d with
    | zero => simpa using hrow i hi
    | succ e =>
      rw [hdepth] at hd
      have he' : e < runFrom
          (fun d => decide (∀ wx < (growCube voxels processed fuel pos).1,
            avail voxels processed ⟨pos.x + wx, pos.y, pos.z + 1 + d⟩))
          fuel 0 := by omega
      have := runFrom_true _ fuel 0 e he'
      simp only [Nat.zero_add, decide_eq_true_eq] at this
      have hcell := this i hi
      have he : (⟨pos.x + (i : ℤ), pos.y, pos.z + (e + 1 : ℕ)⟩ : IVec3) =
          ⟨pos.x + (i : ℤ), pos.y, pos.z + 1 + (e : ℤ)⟩ := by
        congr 1 <;> push_cast <;> ring
      rw [he]
      exact hcell
  -- The full box: the height run.
  cases hy with
  | zero => simpa using hrect wx hwx dz hdz
  | succ g =>
    rw [hheight] at hhy
    have hg : g < runFrom
        (fun h => decide (∀ wx < (growCube voxels processed fuel pos).1,
          ∀ dz < (growCube voxels processed fuel pos).2.2,
          avail voxels processed ⟨pos.x + wx, pos.y + 1 + h, pos.z + dz⟩))
        fuel 0 := by omega
    have := runFrom_true _ fuel 0 g hg
    simp only [Nat.zero_add, decide_eq_true_eq] at this
    have hcell := this wx hwx dz hdz
    have he : (⟨pos.x + (wx : ℤ), pos.y + (g + 1 : ℕ), pos.z + (dz : ℤ)⟩ : IVec3) =
        ⟨pos.x + (wx : ℤ), pos.y + 1 + (g : ℤ), pos.z + (dz : ℤ)⟩ := by
      congr 1 <;> push_cast <;> ring
    rw [he]
    exact hcell

theorem run_le_card (p : ℕ → Bool) (fuel : ℕ) (voxels : Finset IVec3)
    (g : ℕ → IVec3) (hg : ∀ i, p i = true → g i ∈ voxels)
    (hinj : Function.Injective g) :
    runFrom p fuel 0 ≤ voxels.card := by
  refine runFrom_le_of_all_lt p fuel voxels.card fun k hk => ?_
  have : (Finset.range k).card ≤ voxels.card := by
    refine Finset.card_le_card_of_injOn g
      (fun i hi => hg i (hk i (Finset.mem_range.mp hi))) hinj.injOn
  simpa using this

theorem growCube_stable (voxels processed : Finset IVec3) (fuel fuel' : ℕ)
    (pos : IVec3) (h : voxels.card < fuel) (h' : voxels.card < fuel') :
    growCube voxels processed fuel pos = growCube voxels processed fuel' pos := by
  have hwb : ∀ f, runFrom
      (fun i => decide (avail voxels processed ⟨pos.x + 1 + i, pos.y, pos.z⟩))
      f 0 ≤ voxels.card := by
    intro f
    refine run_le_card _ f voxels (fun i => ⟨pos.x + 1 + i, pos.y, pos.z⟩)
      (fun i hi => (of_decide_eq_true hi).1) ?_
    intro i j hij
    simp only [IVec3.mk.injEq] at hij
    omega
  have hw : runFrom
      (fun i => decide (avail voxels processed ⟨pos.x + 1 + i, pos.y, pos.z⟩))
      fuel 0 = runFrom
      (fun i => decide (avail voxels processed ⟨pos.x + 1 + i, pos.y, pos.z⟩))
      fuel' 0 := runFrom_stable _ voxels.card fuel fuel' hwb h h'
  unfold growCube
  simp only [hw]
  set w := 1 + runFrom
      (fun i => decide (avail voxels processed ⟨pos.x + 1 + i, pos.y, pos.z⟩))
      fuel' 0 with hwdef
  have hdb : ∀ f, runFrom
      (fun d => decide (∀ wx < w,
        avail voxels processed ⟨pos.x + wx, pos.y, pos.z + 1 + d⟩)) f 0 ≤
        voxels.card := by
    intro f
    refine run_le_card _ f voxels (fun d => ⟨pos.x + (0 : ℕ), pos.y, pos.z + 1 + d⟩)
      (fun d hd => ((of_decide_eq_true hd) 0 (by omega)).1) ?_
    intro i j hij
    simp only [IVec3.mk.injEq] at hij
    omega
  have hd : runFrom
      (fun d => decide (∀ wx < w,
        avail voxels processed ⟨pos.x + wx, pos.y, pos.z + 1 + d⟩)) fuel 0 =
      runFrom
      (fun d => decide (∀ wx < w,
        avail voxels processed ⟨pos.x + wx, pos.y, pos.z + 1 + d⟩)) fuel' 0 :=
    runFrom_stable _ voxels.card fuel fuel' hdb h h'
  simp only [hd]
  set d := 1 + runFrom
      (fun d => decide (∀ wx < w,
        avail voxels processed ⟨pos.x + wx, pos.y, pos.z + 1 + d⟩)) fuel' 0
    with hddef
  have hhb : ∀ f, runFrom
      (fun hh => decide (∀ wx < w, ∀ dz < d,
        avail voxels processed ⟨pos.x + wx, pos.y + 1 + hh, pos.z + dz⟩)) f 0 ≤
        voxels.card := by
    intro f
    refine run_le_card _ f voxels
      (fun hh => ⟨pos.x + (0 : ℕ), pos.y + 1 + hh, pos.z + (0 : ℕ)⟩)
      (fun hh hht => (((of_decide_eq_true hht) 0 (by omega)) 0 (by omega)).1) ?_
    intro i j hij
    simp only [IVec3.mk.injEq] at hij
    omega
  have hh : runFrom
      (fun hh => decide (∀ wx < w, ∀ dz < d,
        avail voxels processed ⟨pos.x + wx, pos.y + 1 + hh, pos.z + dz⟩)) fuel 0 =
      runFrom
      (fun hh => decide (∀ wx < w, ∀ dz < d,
        avail voxels processed ⟨pos.x + wx, pos.y + 1 + hh, pos.z + dz⟩)) fuel' 0 :=
    runFrom_stable _ voxels.card fuel fuel' hhb h h'
  simp only [hh]

theorem greedyGo_stable (voxels : Finset IVec3) (fuel fuel' : ℕ)
    (h : voxels.card < fuel) (h' : voxels.card < fuel') :
    ∀ (rest : List IVec3) (processed : Finset IVec3),
      greedyGo voxels fuel rest processed = greedyGo voxels fuel' rest processed := by
  intro rest
  induction rest with
  | nil => intro processed; rfl
  | cons pos rest ih =>
    intro processed
    by_cases hmem : pos ∈ processed
    · simp only [greedyGo, if_pos hmem, ih]
    · simp only [greedyGo, if_neg hmem,
        growCube_stable voxels processed fuel fuel' pos h h', ih]

/-- Main loop invariant of `run_greedy_meshing`: provided every scanned
cell is in the voxel set and every unclaimed cell of the set is still to be
scanned, the loop emits cuboids that exactly partition the unclaimed part
of the set, with per-cuboid origin membership, positive sizes, exact
volumes, origins forming a sublist of the scan list, and at most one cuboid
per unclaimed cell. -/
theorem greedyGo_spec (voxels : Finset IVec3) (fuel : ℕ) :
    ∀ (rest : List IVec3) (processed : Finset IVec3),
      (∀ c ∈ rest, c ∈ voxels) →
      (∀ c ∈ voxels, c ∉ processed → c ∈ rest) →
      cubesCells (greedyGo voxels fuel rest processed) = voxels \ processed ∧
      (greedyGo voxels fuel rest processed).Pairwise
        (fun a b => Disjoint a.cells b.cells) ∧
      (∀ cb ∈ greedyGo voxels fuel rest processed,
        cb.origin ∈ voxels ∧ cb.origin ∈ cb.cells ∧
        1 ≤ cb.size.x ∧ 1 ≤ cb.size.y ∧ 1 ≤ cb.size.z ∧ cb.uv = (0, 0) ∧
        ((cb.cells.card : ℤ) = cb.volume)) ∧
      ((greedyGo voxels fuel rest processed).map McCube.origin).Sublist rest ∧
      (greedyGo voxels fuel rest processed).length ≤ (voxels \ processed).card := by
  intro rest
  induction rest with
  | nil =>
    intro processed _ h2
    have he : voxels \ processed = ∅ := by
      rw [Finset.eq_empty_iff_forall_not_mem]
      intro c hc
      rw [Finset.mem_sdiff] at hc
      exact absurd (h2 c hc.1 hc.2) (List.not_mem_nil c)
    simp [greedyGo, cubesCells, he]
  | cons pos rest ih =>
    intro processed h1 h2
    by_cases hmem : pos ∈ processed
    · -- Already claimed: skip.
      have h1' : ∀ c ∈ rest, c ∈ voxels := fun c hc => h1 c (List.mem_cons_of_mem pos hc)
      have h2' : ∀ c ∈ voxels, c ∉ processed → c ∈ rest := by
        intro c hc hcp
        rcases List.mem_cons.mp (h2 c hc hcp) with rfl | hr
        · exact absurd hmem hcp
        · exact hr
      obtain ⟨iu, ipw, icb, isl, ilen⟩ := ih processed h1' h2'
      rw [greedyGo, if_pos hmem] at *
      exact ⟨iu, ipw, icb, isl.cons pos, ilen⟩
    · -- Unclaimed seed: grow a cuboid, claim its cells, recurse.
      have hv : pos ∈ voxels := h1 pos (List.mem_cons_self pos rest)
      set whd := growCube voxels processed fuel pos with hwhd
      set S := cubeCells pos whd.1 whd.2.1 whd.2.2 with hSdef
      have hSavail : ∀ c ∈ S, avail voxels processed c :=
        growCube_avail voxels processed fuel pos hv hmem
      have hSsub : S ⊆ voxels \ processed := by
        intro c hc
        rw [Finset.mem_sdiff]
        exact ⟨(hSavail c hc).1, (hSavail c hc).2⟩
      obtain ⟨hwpos, hhpos, hdpos⟩ := growCube_pos voxels processed fuel pos
      have hposS : pos ∈ S := pos_mem_cubeCells pos hwpos hhpos hdpos
      set cube : McCube :=
        { origin := pos, size := ⟨whd.1, whd.2.1, whd.2.2⟩, uv := (0, 0) }
        with hcube
      have hcells : cube.cells = S := by
        simp [McCube.cells, hcube, hSdef, Int.toNat_natCast]
      have hgo : greedyGo voxels fuel (pos :: rest) processed =
          cube :: greedyGo voxels fuel rest (processed ∪ S) := by
        rw [greedyGo, if_neg hmem]
      have h1' : ∀ c ∈ rest, c ∈ voxels := fun c hc => h1 c (List.mem_cons_of_mem pos hc)
      have h2' : ∀ c ∈ voxels, c ∉ processed ∪ S → c ∈ rest := by
        intro c hc hcp
        rw [Finset.mem_union] at hcp
        push_neg at hcp
        rcases List.mem_cons.mp (h2 c hc hcp.1) with rfl | hr
        · exact absurd hposS hcp.2
        · exact hr
      obtain ⟨iu, ipw, icb, isl, ilen⟩ := ih (processed ∪ S) h1' h2'
      have hdiff : voxels \ (processed ∪ S) = (voxels \ processed) \ S := by
        ext c
        simp only [Finset.mem_sdiff, Finset.mem_union]
        tauto
      have hScard : (S.card : ℤ) = cube.volume := by
        simp only [hSdef, cubeCells_card, McCube.volume, hcube]
        push_cast
        ring
      refine ⟨?_, ?_, ?_, ?_, ?_⟩
      · -- Union of covered cells.
        rw [hgo, cubesCells_cons, hcells, iu, hdiff,
          Finset.union_sdiff_of_subset hSsub]
      · -- Pairwise disjointness.
        rw [hgo, List.pairwise_cons]
        refine ⟨?_, ipw⟩
        intro b hb
        have hbsub : b.cells ⊆ voxels \ (processed ∪ S) := by
          rw [← iu]; exact subset_cubesCells hb
        rw [hcells]
        rw [Finset.disjoint_left]
        intro c hcS hcb
        have := hbsub hcb
        rw [hdiff, Finset.mem_sdiff] at this
        exact this.2 hcS
      · -- Per-cuboid facts.
        rw [hgo]
        intro cb hcb
        rcases List.mem_cons.mp hcb with rfl | hcb'
        · refine ⟨hv, ?_, ?_, ?_, ?_, rfl, ?_⟩
          · rw [hcells]; exact hposS
          · simpa [hcube] using hwpos
          · simpa [hcube] using hhpos
          · simpa [hcube] using hdpos
          · rw [hcells]; exact hScard
        · exact icb cb hcb'
      · -- Origins form a sublist of the scan list.
        rw [hgo, List.map_cons]
        exact isl.cons₂ pos
      · -- At most one cuboid per unclaimed cell.
        rw [hgo, List.length_cons]
        have hc1 : 1 ≤ S.card := Finset.card_pos.mpr ⟨pos, hposS⟩
        have hc2 : S.card ≤ (voxels \ processed).card :=
          Finset.card_le_card hSsub
        have hc3 : (voxels \ (processed ∪ S)).card =
            (voxels \ processed).card - S.card := by
          rw [hdiff, Finset.card_sdiff hSsub]
        omega

/-- Strict lexicographic order on cells by `(y, z, x)`. -/
def cellLt (a b : IVec3) : Prop :=
  a.y < b.y ∨ (a.y = b.y ∧ (a.z < b.z ∨ (a.z = b.z ∧ a.x < b.x)))

theorem cellLe_iff {a b : IVec3} :
    cellLe a b = true ↔
      a.y < b.y ∨ (a.y = b.y ∧ (a.z < b.z ∨ (a.z = b.z ∧ a.x ≤ b.x))) := by
  unfold cellLe
  split_ifs with h1 h2 <;> simp <;> omega

theorem cellLe_trans (a b c : IVec3) :
    cellLe a b → cellLe b c → cellLe a c := by
  simp only [cellLe_iff]
  omega

theorem cellLe_total (a b : IVec3) : cellLe a b || cellLe b a := by
  simp only [Bool.or_eq_true, cellLe_iff]
  omega

theorem cellLe_antisymm {a b : IVec3} (h : cellLe a b = true)
    (h' : cellLe b a = true) : a = b := by
  rw [cellLe_iff] at h h'
  cases a; cases b
  simp only [IVec3.mk.injEq]
  simp only [] at h h'
  refine ⟨by omega, by omega, by omega⟩

theorem cellLt_of_le_of_ne {a b : IVec3} (h : cellLe a b = true) (hne : a ≠ b) :
    cellLt a b := by
  rw [cellLe_iff] at h
  have : ¬(a.x = b.x ∧ a.y = b.y ∧ a.z = b.z) := by
    rintro ⟨h1, h2, h3⟩
    exact hne (by cases a; cases b; simp_all)
  unfold cellLt
  omega

theorem sortCells_sorted (iter : List IVec3) :
    (sortCells iter).Pairwise (fun a b => cellLe a b = true) :=
  List.sorted_mergeSort cellLe_trans cellLe_total iter

theorem sortCells_perm (iter : List IVec3) : (sortCells iter).Perm iter :=
  List.mergeSort_perm iter cellLe

/-- Consolidated facts about `run_greedy_meshing`, obtained by instantiating
the loop invariant at the sorted scan list with nothing claimed. -/
theorem run_greedy_core (iter : List IVec3) :
    cubesCells (run_greedy_meshing iter) = iter.toFinset ∧
    (run_greedy_meshing iter).Pairwise (fun a b => Disjoint a.cells b.cells) ∧
    (∀ cb ∈ run_greedy_meshing iter,
      cb.origin ∈ iter.toFinset ∧ cb.origin ∈ cb.cells ∧
      1 ≤ cb.size.x ∧ 1 ≤ cb.size.y ∧ 1 ≤ cb.size.z ∧ cb.uv = (0, 0) ∧
      ((cb.cells.card : ℤ) = cb.volume)) ∧
    ((run_greedy_meshing iter).map McCube.origin).Sublist (sortCells iter) ∧
    (run_greedy_meshing iter).length ≤ iter.toFinset.card := by
  by_cases he : iter.toFinset = ∅
  · rw [run_greedy_meshing, if_pos he]
    simp [cubesCells, he]
  · have h1 : ∀ c ∈ sortCells iter, c ∈ iter.toFinset := by
      intro c hc
      rw [List.mem_toFinset]
      exact (sortCells_perm iter).mem_iff.mp hc
    have h2 : ∀ c ∈ iter.toFinset, c ∉ (∅ : Finset IVec3) → c ∈ sortCells iter := by
      intro c hc _
      exact (sortCells_perm iter).mem_iff.mpr (List.mem_toFinset.mp hc)
    obtain ⟨iu, ipw, icb, isl, ilen⟩ :=
      greedyGo_spec iter.toFinset (iter.toFinset.card + 1) (sortCells iter) ∅ h1 h2
    rw [run_greedy_meshing, if_neg he]
    rw [Finset.sdiff_empty] at iu ilen
    exact ⟨iu, ipw, icb, isl, ilen⟩

/-- C1: for every finite voxel set given to the greedy mesher, the emitted
cuboids exactly partition the set: every cell of the set is covered, every
covered cell is in the set, no two cuboids cover a common cell, and the
volumes sum to the number of cells. -/
theorem greedy_partition (iter : List IVec3) :
    (∀ v ∈ iter.toFinset, ∃ cb ∈ run_greedy_meshing iter, v ∈ cb.cells) ∧
    (∀ cb ∈ run_greedy_meshing iter, ∀ v ∈ cb.cells, v ∈ iter.toFinset) ∧
    (run_greedy_meshing iter).Pairwise (fun a b => Disjoint a.cells b.cells) ∧
    ((run_greedy_meshing iter).map McCube.volume).sum = (iter.toFinset.card : ℤ) := by
  obtain ⟨iu, ipw, icb, -, -⟩ := run_greedy_core iter
  refine ⟨?_, ?_, ipw, ?_⟩
  · intro v hv
    exact mem_cubesCells.mp (iu ▸ hv)
  · intro cb hcb v hvc
    exact iu ▸ subset_cubesCells hcb hvc
  · rw [sum_volume_eq_card (fun cb hcb => (icb cb hcb).2.2.2.2.2.2) ipw, iu]

/-- C5: the greedy mesher is deterministic — the returned cuboid list does
not depend on the hash-set's native iteration order, because the cells are
first canonically sorted by `(y, z, x)`. -/
theorem greedy_deterministic (l1 l2 : List IVec3) (h : l1.Perm l2) :
    run_greedy_meshing l1 = run_greedy_meshing l2 := by
  haveI : IsAntisymm IVec3 (fun a b => cellLe a b = true) :=
    ⟨fun _ _ => cellLe_antisymm⟩
  have hperm : (sortCells l1).Perm (sortCells l2) :=
    ((sortCells_perm l1).trans h).trans (sortCells_perm l2).symm
  have hsort : sortCells l1 = sortCells l2 :=
    List.eq_of_perm_of_sorted hperm (sortCells_sorted l1) (sortCells_sorted l2)
  rw [run_greedy_meshing, run_greedy_meshing, List.toFinset_eq_of_perm l1 l2 h, hsort]

/-- C5 witness: two iteration orders of the same two-cell set produce the
same cuboid list. -/
theorem greedy_deterministic_witness :
    ([⟨0, 0, 0⟩, ⟨1, 0, 0⟩] : List IVec3).Perm [⟨1, 0, 0⟩, ⟨0, 0, 0⟩] ∧
    run_greedy_meshing [⟨0, 0, 0⟩, ⟨1, 0, 0⟩] =
      run_greedy_meshing [⟨1, 0, 0⟩, ⟨0, 0, 0⟩] :=
  ⟨by decide, greedy_deterministic [⟨0, 0, 0⟩, ⟨1, 0, 0⟩] [⟨1, 0, 0⟩, ⟨0, 0, 0⟩]
    (by decide)⟩

/-- C6: on every finite voxel set the growth loops stop — any fuel beyond
the set's cardinality yields the same result, i.e. every `while` reaches
its exit condition within `card` steps — and the number of emitted cuboids
never exceeds the number of cells. -/
theorem greedy_terminates_and_bounded (iter : List IVec3) (fuel : ℕ)
    (hfuel : iter.toFinset.card < fuel) :
    greedyGo iter.toFinset fuel (sortCells iter) ∅ = run_greedy_meshing iter ∧
    (run_greedy_meshing iter).length ≤ iter.toFinset.card := by
  obtain ⟨-, -, -, -, ilen⟩ := run_greedy_core iter
  refine ⟨?_, ilen⟩
  by_cases he : iter.toFinset = ∅
  · have h0 : iter = [] := (List.toFinset_eq_empty_iff iter).mp he
    rw [run_greedy_meshing, if_pos he, h0]
    simp [sortCells, greedyGo]
  · rw [run_greedy_meshing, if_neg he]
    exact greedyGo_stable iter.toFinset fuel (iter.toFinset.card + 1)
      hfuel (Nat.lt_succ_self _) (sortCells iter) ∅

/-- C6 witness: at a concrete one-cell set, any sufficient fuel gives the
result of `run_greedy_meshing`, and one cuboid is emitted for one cell. -/
theorem greedy_terminates_and_bounded_witness :
    ([⟨0, 0, 0⟩] : List IVec3).toFinset.card < 7 ∧
    (greedyGo ([⟨0, 0, 0⟩] : List IVec3).toFinset 7 (sortCells [⟨0, 0, 0⟩]) ∅ =
        run_greedy_meshing [⟨0, 0, 0⟩] ∧
      (run_greedy_meshing [⟨0, 0, 0⟩]).length ≤
        ([⟨0, 0, 0⟩] : List IVec3).toFinset.card) :=
  ⟨by decide, greedy_terminates_and_bounded [⟨0, 0, 0⟩] 7 (by decide)⟩

/-- C10: every emitted cuboid has all three size components at least 1 and
an origin belonging to the input voxel set, and the cuboids appear in
strictly increasing lexicographic `(y, z, x)` order of their origins. -/
theorem greedy_cuboid_invariants (iter : List IVec3) :
    (∀ cb ∈ run_greedy_meshing iter,
      1 ≤ cb.size.x ∧ 1 ≤ cb.size.y ∧ 1 ≤ cb.size.z ∧
      cb.origin ∈ iter.toFinset) ∧
    ((run_greedy_meshing iter).map McCube.origin).Pairwise cellLt := by
  obtain ⟨-, ipw, icb, isl, -⟩ := run_greedy_core iter
  refine ⟨?_, ?_⟩
  · intro cb hcb
    obtain ⟨ho, -, hx, hy, hz, -, -⟩ := icb cb hcb
    exact ⟨hx, hy, hz, ho⟩
  · have hle : ((run_greedy_meshing iter).map McCube.origin).Pairwise
        (fun a b => cellLe a b = true) :=
      (sortCells_sorted iter).sublist isl
    have hne : ((run_greedy_meshing iter).map McCube.origin).Pairwise (· ≠ ·) := by
      rw [List.pairwise_map]
      refine List.Pairwise.imp_of_mem ?_ ipw
      intro a b ha hb hd heq
      have hao : a.origin ∈ a.cells := (icb a ha).2.1
      have hbo : b.origin ∈ b.cells := (icb b hb).2.1
      rw [heq] at hao
      exact (Finset.disjoint_left.mp hd) hao hbo
    exact (hle.and hne).imp fun h => cellLt_of_le_of_ne h.1 h.2

/-! ## Voxelization (source lines 182–254) -/

/-- A `tobj::Model`'s mesh data: name, flat `f32` position buffer, flat
`u32` index buffer (every 3 consecutive indices one triangle). -/
structure Model where
  name : String
  positions : List ℚ
  indices : List ℕ
deriving DecidableEq, Repr

/-- The inclusive integer range `a..=b` as a list (empty when `b < a`). -/
def rangeICl (a b : ℤ) : List ℤ :=
  (List.range (b + 1 - a).toNat).map (fun (i : ℕ) => a + (i : ℤ))

/-- The per-triangle cell scan of `voxelize_model` (source lines 207–228):
scale the triangle's bounding box into grid units, expand to the inclusive
integer range `floor(min)..=ceil(max)`, and emit every cell of that range
whose cube (center `(cell + 0.5) * voxel_size`, half-extent
`voxel_size / 2`) passes the SAT test. -/
def triangleCells (v0 v1 v2 : Vec3) (scale : ℚ) : List IVec3 :=
  let voxel_size := 1 / scale
  let half_size := voxel_size / 2
  let t_min := Vec3.scl (Vec3.cmin (Vec3.cmin v0 v1) v2) scale
  let t_max := Vec3.scl (Vec3.cmax (Vec3.cmax v0 v1) v2) scale
  let i_min := floorIVec3 t_min
  let i_max := ceilIVec3 t_max
  (rangeICl i_min.x i_max.x).flatMap fun (x : ℤ) =>
    (rangeICl i_min.y i_max.y).flatMap fun (y : ℤ) =>
      (rangeICl i_min.z i_max.z).filterMap fun (z : ℤ) =>
        let center : Vec3 :=
          ⟨((x : ℚ) + 1/2) * voxel_size, ((y : ℚ) + 1/2) * voxel_size,
           ((z : ℚ) + 1/2) * voxel_size⟩
        if triangle_aabb_intersect v0 v1 v2 center half_size
        then some (⟨x, y, z⟩ : IVec3) else none

/-- `vertex_vecs` (source lines 196–198): group the position buffer into
`Vec3`s three floats at a time.  A trailing chunk of fewer than three
floats makes the source index out of bounds (a panic), modelled by
`none`. -/
def vertex_vecs : List ℚ → Option (List Vec3)
  | [] => some []
  | a :: b :: c :: rest => (vertex_vecs rest).map (⟨a, b, c⟩ :: ·)
  | _ => none

/-- The triangle list drawn from the index buffer (source lines 200–205):
three indices at a time, each looked up in the vertex list.  A trailing
chunk of fewer than three indices, or an index not smaller than the number
of vertices, makes the source panic, modelled by `none`. -/
def trianglesOf : List ℕ → List Vec3 → Option (List (Vec3 × Vec3 × Vec3))
  | [], _ => some []
  | i0 :: i1 :: i2 :: rest, verts => do
    let v0 ← verts[i0]?
    let v1 ← verts[i1]?
    let v2 ← verts[i2]?
    let tl ← trianglesOf rest verts
    some ((v0, v1, v2) :: tl)
  | _, _ => none

/-- The voxels of one mesh (source lines 196–231): the cells emitted over
all triangles, with duplicates collapsed by the hash set.  The set's
contents are modelled as a duplicate-free list in one per-run iteration
order (first-emission order); `meshVoxels` below is the order-free view. -/
def meshVoxelsList (m : Model) (scale : ℚ) : Option (List IVec3) := do
  let verts ← vertex_vecs m.positions
  let tris ← trianglesOf m.indices verts
  some (tris.flatMap fun t => triangleCells t.1 t.2.1 t.2.2 scale).dedup

/-- The voxel set of one mesh, as a set. -/
def meshVoxels (m : Model) (scale : ℚ) : Option (Finset IVec3) :=
  (meshVoxelsList m scale).map List.toFinset

/-- `voxelize_model` (source lines 184–254): per mesh, skip when the index
buffer is empty, otherwise rasterize; when the voxel set is non-empty run
the greedy mesher, add the counts and push a bone named after the mesh with
pivot `[0,0,0]`.  The source processes meshes in parallel and pushes bones
in completion order; completion order is modelled as input order.  A panic
anywhere (out-of-bounds vertex access) is modelled by `none`. -/
def voxelize_model : List Model → ℚ → Option (List McBone × ℕ × ℕ)
  | [], _ => some ([], 0, 0)
  | m :: rest, scale =>
    if m.indices = [] then voxelize_model rest scale
    else do
      let voxels ← meshVoxelsList m scale
      let (bones, total_voxels, total_cubes) ← voxelize_model rest scale
      if voxels = [] then some (bones, total_voxels, total_cubes)
      else
        let optimized_cubes := run_greedy_meshing voxels
        some (⟨m.name, ⟨0, 0, 0⟩, optimized_cubes⟩ :: bones,
          voxels.length + total_voxels, optimized_cubes.length + total_cubes)

/-- The bone contributed by one mesh, if any: none when the index buffer is
empty, when rasterization panics, or when the voxel set is empty. -/
def boneFor (scale : ℚ) (m : Model) : Option McBone :=
  if m.indices = [] then none
  else match meshVoxelsList m scale with
    | none => none
    | some voxels =>
      if voxels = [] then none
      else some ⟨m.name, ⟨0, 0, 0⟩, run_greedy_meshing voxels⟩

/-- The cube center the voxelizer tests for a cell (source lines 216–220):
`(cell + 0.5) * voxel_size` per coordinate, with `voxel_size = 1/scale`. -/
def cellCenter (c : IVec3) (scale : ℚ) : Vec3 :=
  ⟨((c.x : ℚ) + 1/2) * (1/scale), ((c.y : ℚ) + 1/2) * (1/scale),
   ((c.z : ℚ) + 1/2) * (1/scale)⟩

/-- The inclusive scanned cell range of a triangle (source lines 207–211):
componentwise `floor(scale*min) ≤ cell ≤ ceil(scale*max)` of the scaled
bounding box. -/
def inScanRange (v0 v1 v2 : Vec3) (scale : ℚ) (c : IVec3) : Prop :=
  let t_min := Vec3.scl (Vec3.cmin (Vec3.cmin v0 v1) v2) scale
  let t_max := Vec3.scl (Vec3.cmax (Vec3.cmax v0 v1) v2) scale
  ⌊t_min.x⌋ ≤ c.x ∧ c.x ≤ ⌈t_max.x⌉ ∧ ⌊t_min.y⌋ ≤ c.y ∧ c.y ≤ ⌈t_max.y⌉ ∧
    ⌊t_min.z⌋ ≤ c.z ∧ c.z ≤ ⌈t_max.z⌉

theorem mem_rangeICl {a b c : ℤ} : c ∈ rangeICl a b ↔ a ≤ c ∧ c ≤ b := by
  simp only [rangeICl, List.mem_map, List.mem_range]
  constructor
  · rintro ⟨i, hi, rfl⟩
    omega
  · rintro ⟨h1, h2⟩
    exact ⟨(c - a).toNat, by omega, by omega⟩

theorem mem_triangleCells {v0 v1 v2 : Vec3} {scale : ℚ} {c : IVec3} :
    c ∈ triangleCells v0 v1 v2 scale ↔
      inScanRange v0 v1 v2 scale c ∧
      triangle_aabb_intersect v0 v1 v2 (cellCenter c scale)
        ((1/scale)/2) = true := by
  simp only [triangleCells, List.mem_flatMap, List.mem_filterMap, mem_rangeICl,
    inScanRange, floorIVec3, ceilIVec3, Option.ite_none_right_eq_some,
    Option.some.injEq]
  constructor
  · rintro ⟨x, hx, y, hy, z, hz, ht, rfl⟩
    exact ⟨⟨hx.1, hx.2, hy.1, hy.2, hz.1, hz.2⟩, ht⟩
  · rintro ⟨⟨hx1, hx2, hy1, hy2, hz1, hz2⟩, ht⟩
    exact ⟨c.x, ⟨hx1, hx2⟩, c.y, ⟨hy1, hy2⟩, c.z, ⟨hz1, hz2⟩, ht, rfl⟩

set_option maxRecDepth 16000 in
/-- C2 counterexample: the triangle with vertices `(0,0,0)`, `(0,1,0)`,
`(0,0,1)` at `scale = 1` yields the voxel set `{(0,0,0), (0,0,1), (0,1,0)}`;
the cell `(-1,0,0)`'s cube intersects the triangle per the triangle-box test
(tangentially, at its `x = 0` face), yet the cell is omitted because it
lies outside the scanned range `floor(0)..ceil(0) = 0..0` along x. -/
theorem voxelizer_omits_intersecting_cell :
    triangle_aabb_intersect ⟨0, 0, 0⟩ ⟨0, 1, 0⟩ ⟨0, 0, 1⟩
      (cellCenter ⟨-1, 0, 0⟩ 1) ((1/1)/2) = true ∧
    meshVoxels ⟨"tri", [0, 0, 0, 0, 1, 0, 0, 0, 1], [0, 1, 2]⟩ 1 =
      some {⟨0, 0, 0⟩, ⟨0, 0, 1⟩, ⟨0, 1, 0⟩} ∧
    (⟨-1, 0, 0⟩ : IVec3) ∉ ({⟨0, 0, 0⟩, ⟨0, 0, 1⟩, ⟨0, 1, 0⟩} : Finset IVec3) := by
  refine ⟨by with_unfolding_all rfl, by with_unfolding_all rfl, by decide⟩

/-- C2 amended: a cell belongs to the voxelizer's output set iff some
triangle of the mesh both contains the cell in its scanned bounding range
`floor(scale*min)..ceil(scale*max)` and passes the triangle-box test for
the cell's cube; an intersecting cell outside every triangle's scanned
range is omitted. -/
theorem voxel_mem_iff (m : Model) (scale : ℚ) (verts : List Vec3)
    (tris : List (Vec3 × Vec3 × Vec3)) (S : Finset IVec3) (c : IVec3)
    (hv : vertex_vecs m.positions = some verts)
    (ht : trianglesOf m.indices verts = some tris)
    (hS : meshVoxels m scale = some S) :
    c ∈ S ↔ ∃ t ∈ tris,
      inScanRange t.1 t.2.1 t.2.2 scale c ∧
      triangle_aabb_intersect t.1 t.2.1 t.2.2 (cellCenter c scale)
        ((1/scale)/2) = true := by
  have hL : meshVoxelsList m scale =
      some ((tris.flatMap fun t =>
        triangleCells t.1 t.2.1 t.2.2 scale).dedup) := by
    simp [meshVoxelsList, hv, ht]
  rw [meshVoxels, hL, Option.map_some', Option.some.injEq] at hS
  subst hS
  simp only [List.mem_toFinset, List.mem_dedup, List.mem_flatMap,
    mem_triangleCells]

/-- C2 amended witness: the characterization applied to the concrete
tangent triangle at the cell `(0,0,0)`. -/
theorem voxel_mem_iff_witness :
    ((⟨0, 0, 0⟩ : IVec3) ∈
        ({⟨0, 0, 0⟩, ⟨0, 0, 1⟩, ⟨0, 1, 0⟩} : Finset IVec3) ↔
      ∃ t ∈ [((⟨0, 0, 0⟩, ⟨0, 1, 0⟩, ⟨0, 0, 1⟩) : Vec3 × Vec3 × Vec3)],
        inScanRange t.1 t.2.1 t.2.2 1 ⟨0, 0, 0⟩ ∧
        triangle_aabb_intersect t.1 t.2.1 t.2.2 (cellCenter ⟨0, 0, 0⟩ 1)
          ((1/1)/2) = true) :=
  voxel_mem_iff ⟨"tri", [0, 0, 0, 0, 1, 0, 0, 0, 1], [0, 1, 2]⟩ 1
    [⟨0, 0, 0⟩, ⟨0, 1, 0⟩, ⟨0, 0, 1⟩]
    [(⟨0, 0, 0⟩, ⟨0, 1, 0⟩, ⟨0, 0, 1⟩)]
    {⟨0, 0, 0⟩, ⟨0, 0, 1⟩, ⟨0, 1, 0⟩} ⟨0, 0, 0⟩
    (by with_unfolding_all rfl) (by with_unfolding_all rfl)
    (by with_unfolding_all rfl)

/-- A 2×1×1 axis-aligned box mesh spanning `[0,2] × [0,1] × [0,1]`:
8 vertices, 12 triangles (two per face), as a loaded OBJ model. -/
def elongatedBox : Model :=
  { name := "box"
    positions := [0, 0, 0,  2, 0, 0,  2, 1, 0,  0, 1, 0,
                  0, 0, 1,  2, 0, 1,  2, 1, 1,  0, 1, 1]
    indices := [0, 1, 2,  0, 2, 3,  4, 6, 5,  4, 7, 6,  0, 5, 1,  0, 4, 5,
                3, 2, 6,  3, 6, 7,  0, 3, 7,  0, 7, 4,  1, 5, 6,  1, 6, 2] }

set_option maxRecDepth 40000 in
/-- C7 counterexample: the `2×1×1` box at `scale = 1` does NOT voxelize to
2 voxels — it voxelizes to 12.  The strict-inequality SAT test counts the
cells tangent to the box's `+x`, `+y` and `+z` faces as intersecting, and
those cells are inside the scanned `floor..ceil` ranges, while the tangent
cells on the `-` sides fall outside the scanned ranges and are clipped. -/
theorem elongatedBox_not_two_voxels :
    (meshVoxels elongatedBox 1).map Finset.card = some 12 ∧ (12 : ℕ) ≠ 2 :=
  ⟨by with_unfolding_all rfl, by decide⟩

set_option maxRecDepth 40000 in
/-- C7 amended: the `2×1×1` box mesh at `scale = 1` voxelizes to the 12-cell
block `{0,1,2} × {0,1} × {0,1}` (the cells of a cuboid of size `(3,2,2)` at
the origin) and the greedy mesher turns it into exactly 1 cuboid of size
`(3,2,2)`, exhibiting width-first merge priority. -/
theorem elongatedBox_voxelization :
    meshVoxels elongatedBox 1 = some (cubeCells ⟨0, 0, 0⟩ 3 2 2) ∧
    voxelize_model [elongatedBox] 1 =
      some ([⟨"box", ⟨0, 0, 0⟩,
        [⟨⟨0, 0, 0⟩, ⟨3, 2, 2⟩, (0, 0)⟩]⟩], 12, 1) := by
  constructor
  · have h1 : meshVoxelsList elongatedBox 1 = some
        [⟨1, 0, 0⟩, ⟨1, 0, 1⟩, ⟨1, 1, 0⟩, ⟨1, 1, 1⟩,
         ⟨0, 0, 0⟩, ⟨0, 0, 1⟩, ⟨0, 1, 0⟩, ⟨0, 1, 1⟩,
         ⟨2, 0, 0⟩, ⟨2, 0, 1⟩, ⟨2, 1, 0⟩, ⟨2, 1, 1⟩] := by
      with_unfolding_all rfl
    rw [meshVoxels, h1, Option.map_some']
    congr 1
    decide
  · with_unfolding_all rfl

/-- C8: the pipeline's bone list is exactly the meshes' `boneFor` images:
a mesh contributes a Group — named after the mesh, with pivot fixed at
`(0,0,0)` — iff its voxel set is non-empty; a mesh with an empty index
buffer is skipped before rasterization, and a mesh with an empty voxel set
is skipped after it, both silently and neither producing an error. -/
theorem pipeline_groups :
    (∀ (models : List Model) (scale : ℚ) (out : List McBone × ℕ × ℕ),
      voxelize_model models scale = some out →
      out.1 = models.filterMap (boneFor scale)) ∧
    (∀ (name : String) (positions : List ℚ) (rest : List Model) (scale : ℚ),
      voxelize_model (⟨name, positions, []⟩ :: rest) scale =
        voxelize_model rest scale) ∧
    (∀ (scale : ℚ) (m : Model),
      m.indices = [] ∨ meshVoxels m scale = some ∅ → boneFor scale m = none) ∧
    (∀ (scale : ℚ) (m : Model) (b : McBone), boneFor scale m = some b →
      b.name = m.name ∧ b.pivot = ⟨0, 0, 0⟩ ∧
      ∃ S, meshVoxels m scale = some S ∧ S ≠ ∅) := by
  refine ⟨?_, ?_, ?_, ?_⟩
  · intro models
    induction models with
    | nil =>
      intro scale out h
      simp only [voxelize_model, Option.some.injEq] at h
      rw [← h]
      rfl
    | cons m rest ih =>
      intro scale out h
      by_cases hidx : m.indices = []
      · have hb : boneFor scale m = none := by rw [boneFor, if_pos hidx]
        rw [List.filterMap_cons_none hb]
        rw [voxelize_model, if_pos hidx] at h
        exact ih scale out h
      · rw [voxelize_model, if_neg hidx] at h
        cases hm : meshVoxelsList m scale with
        | none => rw [hm] at h; simp at h
        | some voxels =>
          rw [hm] at h
          cases hr : voxelize_model rest scale with
          | none => rw [hr] at h; simp at h
          | some triple =>
            obtain ⟨bones, tv, tc⟩ := triple
            rw [hr] at h
            simp only [Option.bind_eq_bind, Option.some_bind] at h
            by_cases hve : voxels = []
            · rw [if_pos hve, Option.some.injEq] at h
              have hb : boneFor scale m = none := by
                simp [boneFor, hidx, hm, hve]
              rw [List.filterMap_cons_none hb, ← h]
              exact ih scale (bones, tv, tc) hr
            · rw [if_neg hve, Option.some.injEq] at h
              have hb : boneFor scale m =
                  some ⟨m.name, ⟨0, 0, 0⟩, run_greedy_meshing voxels⟩ := by
                simp [boneFor, hidx, hm, hve]
              rw [List.filterMap_cons_some hb, ← h]
              have := ih scale (bones, tv, tc) hr
              simpa using congrArg (⟨m.name, ⟨0, 0, 0⟩,
                run_greedy_meshing voxels⟩ :: ·) this
  · intro name positions rest scale
    rw [voxelize_model, if_pos rfl]
  · intro scale m hor
    rcases hor with hidx | hS
    · rw [boneFor, if_pos hidx]
    · cases hm : meshVoxelsList m scale with
      | none => simp [meshVoxels, hm] at hS
      | some L =>
        rw [meshVoxels, hm, Option.map_some', Option.some.injEq] at hS
        have hL : L = [] := by
          rcases L with - | ⟨a, L⟩
          · rfl
          · have ha : a ∈ (a :: L).toFinset := by simp
            rw [hS] at ha
            simp at ha
        by_cases hidx : m.indices = []
        · rw [boneFor, if_pos hidx]
        · rw [boneFor, if_neg hidx, hm]
          simp [hL]
  · intro scale m b hb
    rw [boneFor] at hb
    by_cases hidx : m.indices = []
    · rw [if_pos hidx] at hb; exact absurd hb (by simp)
    · rw [if_neg hidx] at hb
      cases hm : meshVoxelsList m scale with
      | none => rw [hm] at hb; exact absurd hb (by simp)
      | some voxels =>
        simp only [hm] at hb
        by_cases hve : voxels = []
        · rw [if_pos hve] at hb; exact absurd hb (by simp)
        · rw [if_neg hve, Option.some.injEq] at hb
          refine ⟨by rw [← hb], by rw [← hb], voxels.toFinset, ?_, ?_⟩
          · rw [meshVoxels, hm, Option.map_some']
          · simpa [List.toFinset_eq_empty_iff] using hve

/-- C8 witness: the characterization applied to a concrete two-mesh list —
a mesh with an empty index buffer contributes no bone, and the pipeline's
bone list equals the `boneFor` images. -/
theorem pipeline_groups_witness :
    (voxelize_model [(⟨"empty", [], []⟩ : Model)] 1 = some ([], 0, 0) ∧
      ([] : List McBone) =
        [(⟨"empty", [], []⟩ : Model)].filterMap (boneFor 1)) ∧
    voxelize_model [(⟨"e2", [1, 2, 3], []⟩ : Model)] 1 = voxelize_model [] 1 ∧
    boneFor 1 ⟨"empty", [], []⟩ = none :=
  ⟨⟨by decide, pipeline_groups.1 [⟨"empty", [], []⟩] 1 ([], 0, 0) (by decide)⟩,
    pipeline_groups.2.1 "e2" [1, 2, 3] [] 1,
    pipeline_groups.2.2.1 1 ⟨"empty", [], []⟩ (Or.inl rfl)⟩

/-- The vertex grouping succeeds on any position buffer whose length is a
multiple of 3, and yields `length / 3` vertices. -/
theorem vertex_vecs_total : ∀ (ps : List ℚ), ps.length % 3 = 0 →
    ∃ vs, vertex_vecs ps = some vs ∧ vs.length = ps.length / 3
  | [], _ => ⟨[], rfl, rfl⟩
  | a :: b :: c :: rest, h => by
    obtain ⟨vs, hvs, hlen⟩ := vertex_vecs_total rest
      (by simp only [List.length_cons] at h; omega)
    refine ⟨⟨a, b, c⟩ :: vs, by simp [vertex_vecs, hvs], ?_⟩
    simp only [List.length_cons, hlen]
    omega
  | [_], h => by simp at h
  | [_, _], h => by simp at h

/-- Triangle extraction succeeds on any index buffer whose length is a
multiple of 3 and all of whose indices are within the vertex list. -/
theorem trianglesOf_total : ∀ (indices : List ℕ) (verts : List Vec3),
    indices.length % 3 = 0 → (∀ i ∈ indices, i < verts.length) →
    ∃ ts, trianglesOf indices verts = some ts
  | [], _, _, _ => ⟨[], rfl⟩
  | i0 :: i1 :: i2 :: rest, verts, h2, h3 => by
    obtain ⟨ts, hts⟩ := trianglesOf_total rest verts
      (by simp only [List.length_cons] at h2; omega)
      (fun i hi => h3 i (by simp [hi]))
    have g0 := h3 i0 (by simp)
    have g1 := h3 i1 (by simp)
    have g2 := h3 i2 (by simp)
    refine ⟨(verts[i0], verts[i1], verts[i2]) :: ts, ?_⟩
    rw [trianglesOf, List.getElem?_eq_getElem g0,
      List.getElem?_eq_getElem g1,
      List.getElem?_eq_getElem g2, hts]
    rfl
  | [_], _, h2, _ => by simp at h2
  | [_, _], _, h2, _ => by simp at h2

/-- C9: under the upstream invariants — position-buffer length a multiple
of 3, index-buffer length a multiple of 3, every index below the vertex
count (`positions.length / 3`) — every vertex lookup of the voxelizer is
in bounds and its panic branch (`none`) is unreachable; no revalidation of
these invariants occurs in the core. -/
theorem voxelizer_inbounds (m : Model) (scale : ℚ)
    (h1 : m.positions.length % 3 = 0) (h2 : m.indices.length % 3 = 0)
    (h3 : ∀ i ∈ m.indices, i < m.positions.length / 3) :
    (meshVoxels m scale).isSome := by
  obtain ⟨vs, hvs, hlen⟩ := vertex_vecs_total m.positions h1
  obtain ⟨ts, hts⟩ := trianglesOf_total m.indices vs h2
    (fun i hi => hlen ▸ h3 i hi)
  simp [meshVoxels, meshVoxelsList, hvs, hts]

/-- C9 witness: the no-panic theorem applied to the concrete triangle
model, whose buffers satisfy the invariants. -/
theorem voxelizer_inbounds_witness :
    (([(0 : ℚ), 0, 0, 0, 1, 0, 0, 0, 1].length % 3 = 0) ∧
      ([(0 : ℕ), 1, 2].length % 3 = 0) ∧
      (∀ i ∈ [(0 : ℕ), 1, 2], i < [(0 : ℚ), 0, 0, 0, 1, 0, 0, 0, 1].length / 3)) ∧
    (meshVoxels ⟨"tri", [0, 0, 0, 0, 1, 0, 0, 0, 1], [0, 1, 2]⟩ 1).isSome :=
  ⟨⟨by decide, by decide, by decide⟩,
    voxelizer_inbounds ⟨"tri", [0, 0, 0, 0, 1, 0, 0, 0, 1], [0, 1, 2]⟩ 1
      (by decide) (by decide) (by decide)⟩

end Obj2mc
